import Mathlib

/-!
Shallow embedding of the floor-plan chair-counting program.

The program scans an ASCII floor plan row by row, segments it into regions
separated by wall characters, merges vertically connected regions through a
union-find structure with forward pointers and path compression, accumulates
chair counts and parenthesized names on representative regions, and finally
extracts the distinct named representative regions and formats them.

Mutable Python `Room` objects are embedded as records stored in a function
store indexed by the room id; every mutation becomes an explicit store update.
The unbounded recursion of `Room.final` is embedded with an explicit fuel
argument; exhausting the fuel models nontermination and is returned as `none`.
-/

namespace ChairScan

/-- Chair tallies for the four fixed chair types W, P, S, C. -/
structure Chairs where
  w : Nat
  p : Nat
  s : Nat
  c : Nat
deriving DecidableEq, Repr

/-- All-zero chair tally, the initial value of `Room.chairs`. -/
def Chairs.zero : Chairs := ⟨0, 0, 0, 0⟩

/-- Elementwise sum of two chair tallies, as in the loop of `Room.merge_with`. -/
def Chairs.add (a b : Chairs) : Chairs := ⟨a.w + b.w, a.p + b.p, a.s + b.s, a.c + b.c⟩

/-- Increment the tally of one chair type, as in `self.chairs[char] += 1`. -/
def Chairs.incr (k : Chairs) (ch : Char) : Chairs :=
  if ch = 'W' then { k with w := k.w + 1 }
  else if ch = 'P' then { k with p := k.p + 1 }
  else if ch = 'S' then { k with s := k.s + 1 }
  else if ch = 'C' then { k with c := k.c + 1 }
  else k

/-- Total number of chairs, `sum(room.chairs.values())`. -/
def Chairs.total (k : Chairs) : Nat := k.w + k.p + k.s + k.c

/-- The mutable state of one Python `Room` object: optional name, chair
tallies, and the `merged_into` forward pointer (a room id). -/
structure RoomData where
  name : Option String
  chairs : Chairs
  mergedInto : Option Nat
deriving DecidableEq, Repr

/-- A freshly constructed `Room`: no name, zero chairs, no forward pointer. -/
def RoomData.init : RoomData := ⟨none, Chairs.zero, none⟩

/-- The heap of room objects, indexed by room id. -/
abbrev Store := Nat → RoomData

/-- Overwrite the room record stored at id `i`. -/
def setRoom (st : Store) (i : Nat) (r : RoomData) : Store :=
  fun j => if j = i then r else st j

/-- Python truthiness of an optional string: `None` and the empty string are
falsy, every other string is truthy. -/
def pyTruthy : Option String → Bool
  | none => false
  | some st => !st.isEmpty

/-- Pure chase of the `merged_into` chain, with fuel: returns the root id
reached from `i`, or `none` if `fuel` steps do not suffice. -/
def rootN : Nat → Store → Nat → Option Nat
  | 0, _, _ => none
  | fuel + 1, st, i =>
    match (st i).mergedInto with
    | none => some i
    | some j => rootN fuel st j

/-- Embedding of `Room.final`: follow the merge chain to the final room and
compress the path, rewriting every visited link directly to the root.
Returns the updated store and the root id, or `none` when the fuel is
exhausted (modelling a nonterminating chase of a cyclic chain). -/
def finalE : Nat → Store → Nat → Option (Store × Nat)
  | 0, _, _ => none
  | fuel + 1, st, i =>
    match (st i).mergedInto with
    | none => some (st, i)
    | some j =>
      match finalE fuel st j with
      | none => none
      | some (st', r) => some (setRoom st' i { st' i with mergedInto := some r }, r)

/-- Embedding of `Room.merge_with`: `a.merge_with(b)` adds `b`'s chairs onto
`a` elementwise, adopts `b`'s name when `b.name` is truthy and `a.name` is
falsy, sets `b.merged_into` to `a`, and returns `a`. -/
def mergeWith (st : Store) (a b : Nat) : Store × Nat :=
  let ra := st a
  let rb := st b
  let newName := if pyTruthy rb.name && !(pyTruthy ra.name) then rb.name else ra.name
  let st1 := setRoom st a { ra with chairs := Chairs.add ra.chairs rb.chairs, name := newName }
  (setRoom st1 b { st1 b with mergedInto := some a }, a)

/-- The wall character set `WALL_CHARS` of `grid.py`. -/
def wallChars : List Char := ['-', '|', '+', '/', '\\']

/-- Embedding of `is_wall` on characters: membership in `WALL_CHARS`. -/
def isWallChar (ch : Char) : Bool := wallChars.contains ch

/-- The chair character set `CHAIR_CHARS` of `parser.py`. -/
def chairChars : List Char := ['W', 'P', 'S', 'C']

/-- Worker for `splitlines`, accumulating the current line in reverse. -/
def splitlinesAux : List Char → List Char → List String
  | [], acc => if acc.isEmpty then [] else [String.mk acc.reverse]
  | '\r' :: '\n' :: rest, acc => String.mk acc.reverse :: splitlinesAux rest []
  | '\n' :: rest, acc => String.mk acc.reverse :: splitlinesAux rest []
  | '\r' :: rest, acc => String.mk acc.reverse :: splitlinesAux rest []
  | ch :: rest, acc => splitlinesAux rest (ch :: acc)

/-- Embedding of Python `str.splitlines()` restricted to the newline
conventions `\n`, `\r\n` and `\r`: the empty string yields no lines and a
trailing newline does not produce a final empty line. -/
def splitlines (t : String) : List String := splitlinesAux t.data []

/-- Grid height: `len(self.lines)`. -/
def gheight (lines : List String) : Nat := lines.length

/-- Grid width: `max(len(line) for line in lines) if self.lines else 0`. -/
def gwidth (lines : List String) : Nat := (lines.map String.length).foldr max 0

/-- Embedding of `Grid.get_char`: the character at column `x` of row `y`,
with blank space for any out-of-range access. -/
def getChar (lines : List String) (x y : Nat) : Char :=
  match lines[y]? with
  | none => ' '
  | some line => line.data.getD x ' '

/-- Embedding of `Grid.is_wall` at a position. -/
def isWall (lines : List String) (x y : Nat) : Bool := isWallChar (getChar lines x y)

/-- The per-cell room assignment `Grid._cells`, mapping a column/row pair to
the id of the room stored there, if any. -/
abbrev CellMap := Nat → Nat → Option Nat

/-- Embedding of `Grid.set_room`: record the room id at position `(x, y)`. -/
def setCell (m : CellMap) (x y : Nat) (rid : Nat) : CellMap :=
  fun x' y' => if x' = x then (if y' = y then some rid else m x' y') else m x' y'

/-- Embedding of `Grid.get_connected_room_above`: the room assigned to the
cell directly above, unless at the top edge or separated by a wall. -/
def roomAbove (lines : List String) (m : CellMap) (x y : Nat) : Option Nat :=
  if y = 0 then none
  else if isWall lines x (y - 1) then none
  else m x (y - 1)

/-- The scanner state threaded through `parse`: the room store, the per-cell
room assignments, and the `room_counter` (rooms carry ids `1..counter`). -/
structure SState where
  store : Store
  cells : CellMap
  counter : Nat

/-- The connectivity check of `parse` step 4: resolve the room above (when
present and connected) and the current room to their roots and, when the
roots differ, merge the current root into the root from above. -/
def stepAbove (fuel : Nat) (st : Store) (ra : Option Nat) (rid : Nat) : Option Store :=
  match ra with
  | none => some st
  | some a =>
    match finalE fuel st a with
    | none => none
    | some (st1, fa) =>
      match finalE fuel st1 rid with
      | none => none
      | some (st2, fc) =>
        if fa = fc then some st2 else some (mergeWith st2 fa fc).1

/-- The chair-counting step of `parse`: when the character is a chair type,
increment that tally on the root of the current room. -/
def stepChair (fuel : Nat) (st : Store) (ch : Char) (rid : Nat) : Option Store :=
  if ch ∈ chairChars then
    match finalE fuel st rid with
    | none => none
    | some (st1, r) => some (setRoom st1 r { st1 r with chairs := Chairs.incr (st1 r).chairs ch })
  else some st

/-- The name-tracking step of `parse`: `(` opens an empty name buffer, `)`
with an active buffer assigns the buffered text as the name of the current
room's root, and any other character is appended to an active buffer. -/
def stepName (fuel : Nat) (st : Store) (ch : Char) (rid : Nat) (buf : Option String) :
    Option (Store × Option String) :=
  if ch = '(' then some (st, some "")
  else if ch = ')' then
    match buf with
    | some bf =>
      match finalE fuel st rid with
      | none => none
      | some (st1, r) => some (setRoom st1 r { st1 r with name := some bf }, none)
    | none => some (st, none)
  else
    match buf with
    | some bf => some (st, some (bf.push ch))
    | none => some (st, none)

/-- One iteration of the inner loop of `parse` at column `x` of row `y`:
walls close the current room and drop the name buffer; other cells open a
fresh room when needed, run the above-connectivity merge, record the cell's
room, count chairs, and track the name buffer. -/
def cellStep (lines : List String) (y x : Nat) (σ : SState) (cur : Option Nat)
    (buf : Option String) : Option (SState × Option Nat × Option String) :=
  let ch := getChar lines x y
  if isWallChar ch then some (σ, none, none)
  else
    let c' := match cur with | some _ => σ.counter | none => σ.counter + 1
    let rid := match cur with | some r => r | none => σ.counter + 1
    match stepAbove (c' + 1) σ.store (roomAbove lines σ.cells x y) rid with
    | none => none
    | some stA =>
      let cells' := setCell σ.cells x y rid
      match stepChair (c' + 1) stA ch rid with
      | none => none
      | some stB =>
        match stepName (c' + 1) stB ch rid buf with
        | none => none
        | some (stC, buf') => some (⟨stC, cells', c'⟩, some rid, buf')

/-- Run `cellStep` over a list of column indices, threading the row state. -/
def rowSteps (lines : List String) (y : Nat) :
    List Nat → SState × Option Nat × Option String →
    Option (SState × Option Nat × Option String)
  | [], acc => some acc
  | x :: xs, acc =>
    match cellStep lines y x acc.1 acc.2.1 acc.2.2 with
    | none => none
    | some acc' => rowSteps lines y xs acc'

/-- Scan one full row: the current room and the name buffer start out empty. -/
def scanRow (lines : List String) (y : Nat) (σ : SState) : Option SState :=
  match rowSteps lines y (List.range (gwidth lines)) (σ, none, none) with
  | none => none
  | some acc => some acc.1

/-- Scan the listed rows in order. -/
def scanRows (lines : List String) : List Nat → SState → Option SState
  | [], σ => some σ
  | y :: ys, σ =>
    match scanRow lines y σ with
    | none => none
    | some σ' => scanRows lines ys σ'

/-- The initial scanner state: every id maps to a fresh record, no cell is
assigned, and the room counter is zero. -/
def initState : SState := ⟨fun _ => RoomData.init, fun _ _ => none, 0⟩

/-- The full row-major scan of `parse` before extraction. -/
def scanGrid (lines : List String) : Option SState :=
  scanRows lines (List.range (gheight lines)) initState

/-- The row-major list of per-cell room assignments walked by
`extract_unique_rooms` (`for row in self._cells: for cell in row`). -/
def cellsList (w h : Nat) (m : CellMap) : List (Option Nat) :=
  ((List.range h).map (fun y => (List.range w).map (fun x => m x y))).foldr (· ++ ·) []

/-- Embedding of the loop of `Grid.extract_unique_rooms`: resolve each
assigned cell to its root (with compression), deduplicate by root id, collect
named roots in encounter order, and record a warning `(id, total chairs)` for
every distinct unnamed root that holds at least one chair. -/
def extractAux (fuel : Nat) :
    List (Option Nat) → Store → List Nat → List Nat → List (Nat × Nat) →
    Option (Store × List Nat × List Nat × List (Nat × Nat))
  | [], st, seen, out, warns => some (st, seen, out, warns)
  | none :: rest, st, seen, out, warns => extractAux fuel rest st seen out warns
  | some rid :: rest, st, seen, out, warns =>
    match finalE fuel st rid with
    | none => none
    | some (st', r) =>
      if r ∈ seen then extractAux fuel rest st' seen out warns
      else if ((st' r).name).isSome then extractAux fuel rest st' (r :: seen) (out ++ [r]) warns
      else if 0 < (st' r).chairs.total then
        extractAux fuel rest st' (r :: seen) out (warns ++ [(r, (st' r).chairs.total)])
      else extractAux fuel rest st' (r :: seen) out warns

/-- A returned room snapshot: id, name, and chair tallies of a root room. -/
structure RoomSnap where
  rid : Nat
  name : Option String
  chairs : Chairs
deriving DecidableEq, Repr

/-- Embedding of `parse`: split the text into lines, return an empty result
for a zero-height grid, otherwise scan every row and extract the unique named
rooms together with the diagnostics for unnamed rooms holding chairs.
`none` models a nonterminating `Room.final` chase and never actually occurs. -/
def parseE (t : String) : Option (List RoomSnap × List (Nat × Nat)) :=
  let lines := splitlines t
  if gheight lines = 0 then some ([], [])
  else
    match scanGrid lines with
    | none => none
    | some σ =>
      match extractAux (σ.counter + 1) (cellsList (gwidth lines) (gheight lines) σ.cells)
          σ.store [] [] [] with
      | none => none
      | some (st, _, out, warns) => some (out.map (fun r => ⟨r, (st r).name, (st r).chairs⟩), warns)

/-- Rendering of an optional name by a Python f-string: `None` prints as the
text `None`, a string prints as itself. -/
def pyStr : Option String → String
  | none => "None"
  | some st => st

/-- Embedding of `format_chair_line`: the four counts in the fixed display
order W, P, S, C, joined by comma and space. -/
def formatChairLine (k : Chairs) : String :=
  String.intercalate ", "
    ["W: " ++ toString k.w, "P: " ++ toString k.p, "S: " ++ toString k.s, "C: " ++ toString k.c]

/-- The totals accumulation of `format_output`: elementwise sum of the chair
tallies of all rooms. -/
def totalsOf (rooms : List RoomSnap) : Chairs :=
  rooms.foldl (fun a r => Chairs.add a r.chairs) Chairs.zero

/-- The sort key of `format_output`: `room.name or ""`, which is the name
when it is a truthy string and the empty string otherwise. -/
def nameKey (r : RoomSnap) : String :=
  match r.name with
  | none => ""
  | some st => st

/-- Embedding of `sorted(rooms, key=lambda r: r.name or "")`: Python `sorted`
is a stable ascending sort by the key, realised here by a stable insertion
sort with respect to lexicographic string order on the keys. -/
def sortedRooms (rooms : List RoomSnap) : List RoomSnap :=
  List.insertionSort (fun a b => nameKey a ≤ nameKey b) rooms

/-- The per-room output lines of `format_output`: a name line followed by a
chair-count line, for each room in sorted order. -/
def roomLines (rooms : List RoomSnap) : List String :=
  rooms.foldr (fun r acc => (pyStr r.name ++ ":") :: formatChairLine r.chairs :: acc) []

/-- Embedding of `format_output`: the `total:` header and total line, then
the per-room lines of the sorted rooms, joined by newlines with one trailing
newline. -/
def formatOutput (rooms : List RoomSnap) : String :=
  String.intercalate "\n"
    ("total:" :: formatChairLine (totalsOf rooms) :: roomLines (sortedRooms rooms)) ++ "\n"

/-! Specification-side definitions used by refinement claims. They follow
the specification's words for the extraction phase and are compared against
`extractAux`, the definition taken from the source. -/

/-- The root that the pure chain chase assigns to `i`, defaulting to `i`. -/
def rootOf (fuel : Nat) (st : Store) (i : Nat) : Nat := (rootN fuel st i).getD i

/-- First-occurrence deduplication of a list, given an initial set of
already-seen elements. -/
def firstOcc : List Nat → List Nat → List Nat
  | [], _ => []
  | a :: l, seen => if a ∈ seen then firstOcc l seen else a :: firstOcc l (a :: seen)

/-- Spec phrasing: resolve every assigned cell of the walked list to its root
in the given (unchanging) store. -/
def rootsOf (fuel : Nat) (st : Store) (ids : List (Option Nat)) : List Nat :=
  (ids.filterMap (fun o => o)).map (rootOf fuel st)

/-- Spec phrasing: the distinct roots of the walked cells, deduplicated by
root identity in encounter order. -/
def specRoots (fuel : Nat) (st : Store) (ids : List (Option Nat)) : List Nat :=
  firstOcc (rootsOf fuel st ids) []

/-- Spec phrasing: exactly those distinct roots that carry a name. -/
def specRooms (fuel : Nat) (st : Store) (ids : List (Option Nat)) : List Nat :=
  (specRoots fuel st ids).filter (fun r => ((st r).name).isSome)

/-- Spec phrasing: one diagnostic per distinct unnamed root holding at least
one chair, identifying the region and its chair total. -/
def specWarns (fuel : Nat) (st : Store) (ids : List (Option Nat)) : List (Nat × Nat) :=
  ((specRoots fuel st ids).filter
    (fun r => !((st r).name).isSome && decide (0 < (st r).chairs.total))).map
    (fun r => (r, (st r).chairs.total))

/-- The number of room ids in `1..c` whose record has been absorbed into
another room. Chains of `merged_into` links visit pairwise distinct absorbed
rooms, so this bounds every chain length. -/
def absorbedCount (c : Nat) (st : Store) : Nat :=
  ((List.range c).filter (fun n => ((st (n + 1)).mergedInto).isSome)).length

/-- The well-formedness invariant of the scanner's store: ids beyond the
room counter are untouched, forward links stay inside `1..c`, and every
chain chase terminates within `absorbedCount + 1` steps. -/
structure Inv (c : Nat) (st : Store) : Prop where
  fresh : ∀ i, c < i → st i = RoomData.init
  edges : ∀ i j, (st i).mergedInto = some j → 1 ≤ j ∧ j ≤ c
  chains : ∀ i, (rootN (absorbedCount c st + 1) st i).isSome

/-- The range invariant of the per-cell room assignments: every recorded id
lies in `1..c`. -/
def CellsOk (c : Nat) (m : CellMap) : Prop :=
  ∀ x y i, m x y = some i → 1 ≤ i ∧ i ≤ c

/-- The combined well-formedness of a scanner state. -/
def SOk (σ : SState) : Prop := Inv σ.counter σ.store ∧ CellsOk σ.counter σ.cells

/-! Basic lemmas about the pure chain chase `rootN`. -/

theorem rootN_isRoot {f : Nat} {st : Store} {i r : Nat} (h : rootN f st i = some r) :
    (st r).mergedInto = none := by
  induction f generalizing i with
  | zero => simp [rootN] at h
  | succ n ih =>
    rw [rootN] at h
    split at h
    · cases h; assumption
    · exact ih h

theorem rootN_mono {f g : Nat} {st : Store} {i r : Nat} (hfg : f ≤ g)
    (h : rootN f st i = some r) : rootN g st i = some r := by
  induction f generalizing i g with
  | zero => simp [rootN] at h
  | succ n ih =>
    rw [rootN] at h
    obtain ⟨m, rfl⟩ : ∃ m, g = m + 1 := ⟨g - 1, by omega⟩
    rw [rootN]
    split at h <;> rename_i heq
    · exact h
    · exact ih (by omega) h

theorem rootN_det {f g : Nat} {st : Store} {i r r' : Nat} (h : rootN f st i = some r)
    (h' : rootN g st i = some r') : r' = r := by
  induction f generalizing i g with
  | zero => simp [rootN] at h
  | succ n ih =>
    cases g with
    | zero => simp [rootN] at h'
    | succ m =>
      rw [rootN] at h h'
      split at h <;> rename_i heq <;> rw [heq] at h'
      · cases h; cases h'; rfl
      · exact ih h h'

theorem rootN_congr {st st' : Store} (hm : ∀ k, (st' k).mergedInto = (st k).mergedInto)
    (f : Nat) (i : Nat) : rootN f st' i = rootN f st i := by
  induction f generalizing i with
  | zero => simp [rootN]
  | succ n ih =>
    rw [rootN, rootN, hm i]
    split
    · rfl
    · exact ih _

theorem rootN_range {f : Nat} {st : Store} {i r : Nat} (h : rootN f st i = some r) :
    r = i ∨ ∃ i', (st i').mergedInto = some r := by
  induction f generalizing i with
  | zero => simp [rootN] at h
  | succ n ih =>
    rw [rootN] at h
    split at h <;> rename_i heq
    · cases h; exact Or.inl rfl
    · rcases ih h with hr | hr
      · exact Or.inr ⟨i, hr ▸ heq⟩
      · exact Or.inr hr

/-! Lemmas about `finalE`, the embedded `Room.final` with path compression. -/

theorem finalE_of_root {f : Nat} {st : Store} {i : Nat} (h : (st i).mergedInto = none) :
    finalE (f + 1) st i = some (st, i) := by
  rw [finalE, h]

theorem finalE_rootN {f : Nat} {st : Store} {i r : Nat} {st' : Store}
    (h : finalE f st i = some (st', r)) : rootN f st i = some r := by
  induction f generalizing st st' i with
  | zero => simp [finalE] at h
  | succ n ih =>
    rw [finalE] at h
    rw [rootN]
    split at h <;> rename_i heq
    · cases h; rfl
    · split at h
      · cases h
      · rename_i st1 r1 hrec
        cases h
        exact ih hrec

theorem finalE_isSome {f : Nat} {st : Store} {i r : Nat} (h : rootN f st i = some r) :
    ∃ st', finalE f st i = some (st', r) := by
  induction f generalizing st i with
  | zero => simp [rootN] at h
  | succ n ih =>
    rw [rootN] at h
    rw [finalE]
    split at h <;> rename_i heq
    · cases h; exact ⟨st, rfl⟩
    · obtain ⟨st1, hst1⟩ := ih h
      rw [hst1]
      exact ⟨_, rfl⟩

theorem finalE_preserves {f : Nat} {st st' : Store} {i r : Nat}
    (h : finalE f st i = some (st', r)) (k : Nat) :
    (st' k).name = (st k).name ∧ (st' k).chairs = (st k).chairs := by
  induction f generalizing st st' i with
  | zero => simp [finalE] at h
  | succ n ih =>
    rw [finalE] at h
    split at h <;> rename_i heq
    · cases h; exact ⟨rfl, rfl⟩
    · split at h
      · cases h
      · rename_i st1 r1 hrec
        cases h
        have hk := ih hrec
        by_cases hik : k = i
        · subst hik
          simpa [setRoom] using hk
        · simpa [setRoom, hik] using hk

theorem finalE_touched {f : Nat} {st st' : Store} {i r : Nat}
    (h : finalE f st i = some (st', r)) (k : Nat) :
    (st' k).mergedInto = (st k).mergedInto ∨ (st' k).mergedInto = some r := by
  induction f generalizing st st' i with
  | zero => simp [finalE] at h
  | succ n ih =>
    rw [finalE] at h
    split at h <;> rename_i heq
    · cases h; exact Or.inl rfl
    · split at h
      · cases h
      · rename_i st1 r1 hrec
        cases h
        by_cases hik : k = i
        · subst hik; simp [setRoom]
        · simpa [setRoom, hik] using ih hrec

theorem finalE_rootRoot {f : Nat} {st st' : Store} {i r : Nat}
    (h : finalE f st i = some (st', r)) : (st' r).mergedInto = none := by
  induction f generalizing st st' i with
  | zero => simp [finalE] at h
  | succ n ih =>
    rw [finalE] at h
    split at h <;> rename_i heq
    · cases h; assumption
    · split at h
      · cases h
      · rename_i st1 r1 hrec
        cases h
        have hroot := ih hrec
        have hir : r ≠ i := by
          intro hri
          rw [hri] at hroot
          rcases finalE_touched hrec i with hmi | hmi
          · rw [heq] at hmi; rw [hroot] at hmi; cases hmi
          · rw [hroot] at hmi; cases hmi
        simpa [setRoom, hir] using hroot

/-- Rewiring one non-root link directly to its own root never changes the
root that the chain chase assigns to any node, at unchanged fuel. -/
theorem rootN_setLink {f : Nat} {st : Store} {m j r : Nat}
    (hmj : (st m).mergedInto = some j) (hmr : rootN f st m = some r) {g k a : Nat}
    (h : rootN g st k = some a) :
    rootN g (setRoom st m { st m with mergedInto := some r }) k = some a := by
  induction g generalizing k with
  | zero => simp [rootN] at h
  | succ n ih =>
    have hrroot : (st r).mergedInto = none := rootN_isRoot hmr
    have hrm : r ≠ m := by
      intro hrm
      rw [hrm, hmj] at hrroot
      cases hrroot
    by_cases hkm : k = m
    · subst hkm
      have har : a = r := rootN_det hmr h
      rw [har]
      rw [rootN] at h
      rw [hmj] at h
      have hn1 : 1 ≤ n := by
        cases hn : n with
        | zero => rw [hn] at h; simp [rootN] at h
        | succ _ => omega
      obtain ⟨n', rfl⟩ : ∃ n', n = n' + 1 := ⟨n - 1, by omega⟩
      rw [rootN]
      have hsm : (setRoom st k { st k with mergedInto := some r } k).mergedInto = some r := by
        simp [setRoom]
      rw [hsm]
      show rootN (n' + 1) (setRoom st k { st k with mergedInto := some r }) r = some r
      rw [rootN]
      have hsr : (setRoom st k { st k with mergedInto := some r } r).mergedInto = none := by
        simp only [setRoom, if_neg hrm]
        exact hrroot
      rw [hsr]
    · rw [rootN] at h
      rw [rootN]
      have hsk : setRoom st m { st m with mergedInto := some r } k = st k := by
        simp [setRoom, hkm]
      rw [hsk]
      cases heq : (st k).mergedInto with
      | none => rw [heq] at h; exact h
      | some j' =>
        rw [heq] at h
        show rootN n (setRoom st m { st m with mergedInto := some r }) j' = some a
        exact ih h

/-- Path compression by `Room.final` never changes the root that the chain
chase assigns to any node, at unchanged fuel. -/
theorem finalE_preserves_root {f : Nat} {st st' : Store} {i r : Nat}
    (h : finalE f st i = some (st', r)) {g k a : Nat}
    (hk : rootN g st k = some a) : rootN g st' k = some a := by
  induction f generalizing st st' i g k a with
  | zero => simp [finalE] at h
  | succ n ih =>
    rw [finalE] at h
    split at h <;> rename_i heq
    · cases h; exact hk
    · split at h
      · cases h
      · rename_i st1 r1 hrec
        cases h
        obtain ⟨j, heqj⟩ : ∃ j, (st i).mergedInto = some j := ⟨_, heq⟩
        have hjj : j = _ := Option.some.injEq _ _ ▸ (heqj.symm.trans heq)
        have hroots : rootN n st j = some r := by
          rw [hjj]; exact finalE_rootN hrec
        have hk1 : rootN g st1 k = some a := ih hrec hk
        have hij : (st1 i).mergedInto = some j ∨ (st1 i).mergedInto = some r :=
          (finalE_touched hrec i).imp (fun hx => hx.trans heqj) id
        have hir : rootN (n + 1) st1 i = some r := by
          rcases hij with hx | hx
          · rw [rootN, hx]
            show rootN n st1 j = some r
            exact ih hrec hroots
          · rw [rootN, hx]
            have hnone : (st1 r).mergedInto = none := finalE_rootRoot hrec
            cases n with
            | zero => simp [rootN] at hroots
            | succ n' =>
              show rootN (n' + 1) st1 r = some r
              rw [rootN, hnone]
        rcases hij with hx | hx
        · exact rootN_setLink hx hir hk1
        · exact rootN_setLink hx hir hk1

/-! Lemmas about `mergeWith`, the embedded `Room.merge_with`. -/

theorem mergeWith_snd (st : Store) (a b : Nat) : (mergeWith st a b).2 = a := rfl

theorem mergeWith_mergedInto (st : Store) (a b k : Nat) :
    ((mergeWith st a b).1 k).mergedInto = if k = b then some a else (st k).mergedInto := by
  by_cases hkb : k = b
  · subst hkb
    simp [mergeWith, setRoom]
  · by_cases hka : k = a
    · subst hka
      simp [mergeWith, setRoom, hkb]
    · simp [mergeWith, setRoom, hkb, hka]

theorem mergeWith_chairs_a (st : Store) (a b : Nat) :
    ((mergeWith st a b).1 a).chairs = Chairs.add (st a).chairs (st b).chairs := by
  by_cases hab : a = b
  · subst hab
    simp [mergeWith, setRoom]
  · simp [mergeWith, setRoom, hab]

theorem mergeWith_name_a (st : Store) (a b : Nat) (hab : a ≠ b) :
    ((mergeWith st a b).1 a).name =
      if pyTruthy (st b).name && !(pyTruthy (st a).name) then (st b).name else (st a).name := by
  simp [mergeWith, setRoom, hab]

theorem mergeWith_other (st : Store) (a b k : Nat) (hka : k ≠ a) (hkb : k ≠ b) :
    (mergeWith st a b).1 k = st k := by
  simp [mergeWith, setRoom, hka, hkb]

theorem mergeWith_name_b (st : Store) (a b : Nat) (hab : a ≠ b) :
    ((mergeWith st a b).1 b).name = (st b).name := by
  have hba : b ≠ a := fun h => hab h.symm
  simp [mergeWith, setRoom, hba]

theorem mergeWith_chairs_b (st : Store) (a b : Nat) (hab : a ≠ b) :
    ((mergeWith st a b).1 b).chairs = (st b).chairs := by
  have hba : b ≠ a := fun h => hab h.symm
  simp [mergeWith, setRoom, hba]

/-- Merging root `b` into root `a` reroots the class of `b` onto `a` and
leaves every other node's root unchanged; one extra unit of fuel accounts for
the newly created link. -/
theorem mergeWith_rootN {st : Store} {a b : Nat} (hra : (st a).mergedInto = none)
    (hrb : (st b).mergedInto = none) (hab : a ≠ b) {g k r : Nat}
    (h : rootN g st k = some r) :
    rootN (g + 1) (mergeWith st a b).1 k = some (if r = b then a else r) := by
  induction g generalizing k with
  | zero => simp [rootN] at h
  | succ n ih =>
    rw [rootN] at h
    cases heq : (st k).mergedInto with
    | none =>
      rw [heq] at h
      replace h := Option.some.inj h
      subst h
      by_cases hkb : k = b
      · subst hkb
        rw [if_pos rfl]
        rw [rootN]
        have h1 : ((mergeWith st a k).1 k).mergedInto = some a := by
          rw [mergeWith_mergedInto, if_pos rfl]
        rw [h1]
        show rootN (n + 1) (mergeWith st a k).1 a = some a
        rw [rootN]
        have h2 : ((mergeWith st a k).1 a).mergedInto = none := by
          rw [mergeWith_mergedInto, if_neg hab]
          exact hra
        rw [h2]
      · rw [if_neg hkb]
        rw [rootN]
        have h1 : ((mergeWith st a b).1 k).mergedInto = none := by
          rw [mergeWith_mergedInto, if_neg hkb]
          exact heq
        rw [h1]
    | some j =>
      rw [heq] at h
      have hkb : k ≠ b := by
        intro hx
        rw [hx, hrb] at heq
        cases heq
      rw [rootN]
      have h1 : ((mergeWith st a b).1 k).mergedInto = some j := by
        rw [mergeWith_mergedInto, if_neg hkb]
        exact heq
      rw [h1]
      show rootN (n + 1) (mergeWith st a b).1 j = some (if r = b then a else r)
      exact ih h

/-! Lemmas about `absorbedCount` and the store invariant `Inv`. -/

theorem absorbedCount_le (c : Nat) (st : Store) : absorbedCount c st ≤ c := by
  calc ((List.range c).filter (fun n => ((st (n + 1)).mergedInto).isSome)).length
      ≤ (List.range c).length := List.length_filter_le _ _
    _ = c := List.length_range c

theorem absorbedCount_congr {c : Nat} {st st' : Store}
    (h : ∀ i, ((st' i).mergedInto).isSome = ((st i).mergedInto).isSome) :
    absorbedCount c st' = absorbedCount c st := by
  unfold absorbedCount
  congr 1
  exact List.filter_congr (fun n _ => h (n + 1))

theorem filter_length_flip {l : List Nat} (hnd : l.Nodup) {n0 : Nat} (hmem : n0 ∈ l)
    {p q : Nat → Bool} (hagree : ∀ n ∈ l, n ≠ n0 → q n = p n)
    (hp : p n0 = false) (hq : q n0 = true) :
    (l.filter q).length = (l.filter p).length + 1 := by
  induction l with
  | nil => cases hmem
  | cons a t ih =>
    rcases List.mem_cons.mp hmem with rfl | hmem'
    · have hnot : n0 ∉ t := (List.nodup_cons.mp hnd).1
      have hagree' : ∀ n ∈ t, q n = p n := fun n hn =>
        hagree n (List.mem_cons_of_mem _ hn) (fun heq => hnot (heq ▸ hn))
      rw [List.filter_cons, List.filter_cons, hp, hq]
      rw [List.filter_congr hagree']
      simp
    · have hne : a ≠ n0 := by
        intro hx
        exact (List.nodup_cons.mp hnd).1 (hx ▸ hmem')
      have hqa : q a = p a := hagree a (List.mem_cons_self _ _) hne
      rw [List.filter_cons, List.filter_cons, hqa]
      have := ih (List.nodup_cons.mp hnd).2 hmem'
        (fun n hn hne' => hagree n (List.mem_cons_of_mem _ hn) hne')
      cases hpa : p a <;> simp [hpa, this]

theorem absorbedCount_merge {c : Nat} {st : Store} {a b : Nat}
    (hb1 : 1 ≤ b) (hbc : b ≤ c) (hrb : (st b).mergedInto = none) :
    absorbedCount c (mergeWith st a b).1 = absorbedCount c st + 1 := by
  unfold absorbedCount
  apply filter_length_flip (List.nodup_range c)
    (show b - 1 ∈ List.range c from List.mem_range.mpr (by omega))
  · intro n _ hn
    rw [mergeWith_mergedInto]
    rw [if_neg (by omega)]
  · have hb : b - 1 + 1 = b := by omega
    rw [hb, hrb]
    rfl
  · have hb : b - 1 + 1 = b := by omega
    rw [hb, mergeWith_mergedInto, if_pos rfl]
    rfl

theorem finalE_writes {f : Nat} {st st' : Store} {i r : Nat}
    (h : finalE f st i = some (st', r)) (k : Nat) :
    st' k = st k ∨
      ((∃ j, (st k).mergedInto = some j) ∧ st' k = { st k with mergedInto := some r }) := by
  induction f generalizing st st' i with
  | zero => simp [finalE] at h
  | succ n ih =>
    rw [finalE] at h
    split at h <;> rename_i heq
    · cases h; exact Or.inl rfl
    · split at h
      · cases h
      · rename_i st1 r1 hrec
        cases h
        by_cases hik : k = i
        · subst hik
          right
          refine ⟨⟨_, heq⟩, ?_⟩
          have hst1 : (st1 k).name = (st k).name ∧ (st1 k).chairs = (st k).chairs :=
            finalE_preserves hrec k
          simp only [setRoom, if_pos rfl]
          cases hrk : st1 k with
          | mk nm ch mi =>
            cases hstk : st k with
            | mk nm' ch' mi' =>
              have h1 : nm = nm' := by
                have := hst1.1
                rw [hrk, hstk] at this
                exact this
              have h2 : ch = ch' := by
                have := hst1.2
                rw [hrk, hstk] at this
                exact this
              simp [h1, h2]
        · rcases ih hrec with hk | ⟨hj, hk⟩
          · left
            simpa [setRoom, hik] using hk
          · right
            refine ⟨hj, ?_⟩
            simpa [setRoom, hik] using hk

theorem inv_init : Inv 0 (fun _ => RoomData.init) := by
  constructor
  · intro i _
    rfl
  · intro i j h
    cases h
  · intro i
    rfl

theorem inv_mono {c : Nat} {st : Store} (hinv : Inv c st) : Inv (c + 1) st := by
  refine ⟨fun i hi => hinv.fresh i (by omega), fun i j h => ⟨(hinv.edges i j h).1, by
    have := (hinv.edges i j h).2
    omega⟩, fun i => ?_⟩
  have habs : absorbedCount (c + 1) st = absorbedCount c st := by
    unfold absorbedCount
    rw [List.range_succ, List.filter_append]
    have hfresh : st (c + 1) = RoomData.init := hinv.fresh _ (by omega)
    simp [hfresh, RoomData.init]
  rw [habs]
  exact hinv.chains i

theorem inv_update_nc {c : Nat} {st : Store} {k : Nat} {r : RoomData} (hinv : Inv c st)
    (hkc : k ≤ c) (hmi : r.mergedInto = (st k).mergedInto) : Inv c (setRoom st k r) := by
  have hpt : ∀ i, ((setRoom st k r) i).mergedInto = (st i).mergedInto := by
    intro i
    by_cases hik : i = k
    · subst hik; simpa [setRoom] using hmi
    · simp [setRoom, hik]
  refine ⟨fun i hi => ?_, fun i j h => ?_, fun i => ?_⟩
  · have hik : i ≠ k := by omega
    rw [show setRoom st k r i = st i by simp [setRoom, hik]]
    exact hinv.fresh i hi
  · rw [hpt i] at h
    exact hinv.edges i j h
  · have habs : absorbedCount c (setRoom st k r) = absorbedCount c st :=
      absorbedCount_congr (fun i => congrArg Option.isSome (hpt i))
    rw [habs, rootN_congr hpt]
    exact hinv.chains i

theorem inv_finalE {c : Nat} {st st' : Store} {i r : Nat} (hinv : Inv c st)
    (h : finalE f st i = some (st', r)) : Inv c st' := by
  have hrootr : (st r).mergedInto = none := rootN_isRoot (finalE_rootN h)
  have hrbound : ∀ k j, (st k).mergedInto = some j → st' k = { st k with mergedInto := some r } →
      1 ≤ r ∧ r ≤ c := by
    intro k j hkj hk'
    rcases rootN_range (finalE_rootN h) with hri | ⟨i', hi'⟩
    · subst hri
      have hf1 : ∃ n, f = n + 1 := by
        cases f with
        | zero => simp [finalE] at h
        | succ n => exact ⟨n, rfl⟩
      obtain ⟨n, rfl⟩ := hf1
      rw [finalE_of_root hrootr] at h
      have hst : st' = st := ((Prod.ext_iff.mp (Option.some.inj h)).1).symm
      rw [hst] at hk'
      have hmi : (st k).mergedInto = some r := congrArg RoomData.mergedInto hk'
      exact hinv.edges k r hmi
    · exact hinv.edges i' r hi'
  refine ⟨fun k hk => ?_, fun k j hkj => ?_, fun k => ?_⟩
  · rcases finalE_writes h k with hw | ⟨⟨j, hj⟩, hw⟩
    · rw [hw]; exact hinv.fresh k hk
    · rw [hinv.fresh k hk] at hj
      cases hj
  · rcases finalE_writes h k with hw | ⟨⟨j', hj'⟩, hw⟩
    · rw [hw] at hkj
      exact hinv.edges k j hkj
    · rw [hw] at hkj
      have : some r = some j := hkj
      cases this
      exact hrbound k j' hj' hw
  · have habs : absorbedCount c st' = absorbedCount c st := by
      apply absorbedCount_congr
      intro k
      rcases finalE_writes h k with hw | ⟨⟨j, hj⟩, hw⟩
      · rw [hw]
      · rw [hw, hj]
        rfl
    rw [habs]
    have := hinv.chains k
    rw [Option.isSome_iff_exists] at this ⊢
    obtain ⟨a, ha⟩ := this
    exact ⟨a, finalE_preserves_root h ha⟩

theorem inv_merge {c : Nat} {st : Store} {a b : Nat} (hinv : Inv c st)
    (hra : (st a).mergedInto = none) (hrb : (st b).mergedInto = none) (hab : a ≠ b)
    (ha1 : 1 ≤ a) (hac : a ≤ c) (hb1 : 1 ≤ b) (hbc : b ≤ c) :
    Inv c (mergeWith st a b).1 := by
  refine ⟨fun k hk => ?_, fun k j hkj => ?_, fun k => ?_⟩
  · rw [mergeWith_other st a b k (by omega) (by omega)]
    exact hinv.fresh k hk
  · rw [mergeWith_mergedInto] at hkj
    by_cases hkb : k = b
    · rw [if_pos hkb] at hkj
      cases hkj
      exact ⟨ha1, hac⟩
    · rw [if_neg hkb] at hkj
      exact hinv.edges k j hkj
  · rw [absorbedCount_merge hb1 hbc hrb]
    have := hinv.chains k
    rw [Option.isSome_iff_exists] at this ⊢
    obtain ⟨x, hx⟩ := this
    exact ⟨_, mergeWith_rootN hra hrb hab hx⟩

theorem inv_finalE_ok {c : Nat} {st : Store} (hinv : Inv c st) (i : Nat) :
    ∃ st' r, finalE (c + 1) st i = some (st', r) ∧ rootN (c + 1) st i = some r := by
  have := hinv.chains i
  rw [Option.isSome_iff_exists] at this
  obtain ⟨r, hr⟩ := this
  have hr' : rootN (c + 1) st i = some r :=
    rootN_mono (by have := absorbedCount_le c st; omega) hr
  obtain ⟨st', hst'⟩ := finalE_isSome hr'
  exact ⟨st', r, hst', hr'⟩

theorem root_bounds {c : Nat} {st : Store} {f i r : Nat} (hinv : Inv c st)
    (h : rootN f st i = some r) (hi1 : 1 ≤ i) (hic : i ≤ c) : 1 ≤ r ∧ r ≤ c := by
  rcases rootN_range h with rfl | ⟨i', hi'⟩
  · exact ⟨hi1, hic⟩
  · exact hinv.edges i' r hi'

theorem cellsOk_mono {c c' : Nat} {m : CellMap} (h : CellsOk c m) (hcc : c ≤ c') :
    CellsOk c' m := by
  intro x y i hi
  have := h x y i hi
  omega

theorem roomAbove_mem {lines : List String} {m : CellMap} {x y a : Nat}
    (h : roomAbove lines m x y = some a) : m x (y - 1) = some a := by
  unfold roomAbove at h
  split at h
  · cases h
  · split at h
    · cases h
    · exact h

/-! Success and invariant preservation of the scanner's per-cell stages. -/

theorem stepAbove_ok {c : Nat} {st : Store} {ra : Option Nat} {rid : Nat} (hinv : Inv c st)
    (hra : ∀ a, ra = some a → 1 ≤ a ∧ a ≤ c) (h1 : 1 ≤ rid) (hc : rid ≤ c) :
    ∃ st', stepAbove (c + 1) st ra rid = some st' ∧ Inv c st' := by
  cases ra with
  | none => exact ⟨st, rfl, hinv⟩
  | some a =>
    obtain ⟨st1, fa, hf1, hr1⟩ := inv_finalE_ok hinv a
    have hinv1 : Inv c st1 := inv_finalE hinv hf1
    obtain ⟨st2, fc, hf2, hr2⟩ := inv_finalE_ok hinv1 rid
    have hinv2 : Inv c st2 := inv_finalE hinv1 hf2
    rw [stepAbove, hf1]
    dsimp only
    rw [hf2]
    dsimp only
    by_cases hfafc : fa = fc
    · rw [if_pos hfafc]
      exact ⟨st2, rfl, hinv2⟩
    · rw [if_neg hfafc]
      refine ⟨_, rfl, ?_⟩
      have hfa_root1 : (st1 fa).mergedInto = none := finalE_rootRoot hf1
      have hfa_root : (st2 fa).mergedInto = none := by
        rcases finalE_writes hf2 fa with hw | ⟨⟨j, hj⟩, _⟩
        · rw [hw]; exact hfa_root1
        · rw [hfa_root1] at hj; cases hj
      have hfc_root : (st2 fc).mergedInto = none := finalE_rootRoot hf2
      have hfab : 1 ≤ fa ∧ fa ≤ c := root_bounds hinv hr1 (hra a rfl).1 (hra a rfl).2
      have hfcb : 1 ≤ fc ∧ fc ≤ c := root_bounds hinv1 hr2 h1 hc
      exact inv_merge hinv2 hfa_root hfc_root hfafc hfab.1 hfab.2 hfcb.1 hfcb.2

theorem stepChair_ok {c : Nat} {st : Store} {ch : Char} {rid : Nat} (hinv : Inv c st)
    (h1 : 1 ≤ rid) (hc : rid ≤ c) :
    ∃ st', stepChair (c + 1) st ch rid = some st' ∧ Inv c st' := by
  rw [stepChair]
  by_cases hch : ch ∈ chairChars
  · rw [if_pos hch]
    obtain ⟨st1, r, hf, hr⟩ := inv_finalE_ok hinv rid
    have hinv1 : Inv c st1 := inv_finalE hinv hf
    rw [hf]
    refine ⟨_, rfl, ?_⟩
    have hrb : 1 ≤ r ∧ r ≤ c := root_bounds hinv hr h1 hc
    exact inv_update_nc hinv1 hrb.2 rfl
  · rw [if_neg hch]
    exact ⟨st, rfl, hinv⟩

theorem stepName_ok {c : Nat} {st : Store} {ch : Char} {rid : Nat} (buf : Option String)
    (hinv : Inv c st) (h1 : 1 ≤ rid) (hc : rid ≤ c) :
    ∃ st' buf', stepName (c + 1) st ch rid buf = some (st', buf') ∧ Inv c st' := by
  unfold stepName
  by_cases hop : ch = '('
  · rw [if_pos hop]
    exact ⟨st, some "", rfl, hinv⟩
  · rw [if_neg hop]
    by_cases hcl : ch = ')'
    · rw [if_pos hcl]
      cases buf with
      | none => exact ⟨st, none, rfl, hinv⟩
      | some bf =>
        obtain ⟨st1, r, hf, hr⟩ := inv_finalE_ok hinv rid
        have hinv1 : Inv c st1 := inv_finalE hinv hf
        rw [hf]
        refine ⟨_, none, rfl, ?_⟩
        have hrb : 1 ≤ r ∧ r ≤ c := root_bounds hinv hr h1 hc
        exact inv_update_nc hinv1 hrb.2 rfl
    · rw [if_neg hcl]
      cases buf with
      | none => exact ⟨st, none, rfl, hinv⟩
      | some bf => exact ⟨st, some (bf.push ch), rfl, hinv⟩

theorem cellStep_ok {lines : List String} {y x : Nat} {σ : SState} {cur : Option Nat}
    {buf : Option String} (hinv : Inv σ.counter σ.store) (hcells : CellsOk σ.counter σ.cells)
    (hcur : ∀ rid, cur = some rid → 1 ≤ rid ∧ rid ≤ σ.counter) :
    ∃ σ' cur' buf', cellStep lines y x σ cur buf = some (σ', cur', buf') ∧
      Inv σ'.counter σ'.store ∧ CellsOk σ'.counter σ'.cells ∧
      (∀ rid, cur' = some rid → 1 ≤ rid ∧ rid ≤ σ'.counter) ∧ σ.counter ≤ σ'.counter := by
  unfold cellStep
  by_cases hw : isWallChar (getChar lines x y)
  · rw [if_pos hw]
    exact ⟨σ, none, none, rfl, hinv, hcells, by simp, le_refl _⟩
  · rw [if_neg hw]
    set c' := (match cur with | some _ => σ.counter | none => σ.counter + 1) with hc'
    set rid := (match cur with | some r => r | none => σ.counter + 1) with hrid
    have hcc' : σ.counter ≤ c' := by
      cases cur <;> simp [hc']
    have hinv' : Inv c' σ.store := by
      cases cur with
      | none => exact inv_mono hinv
      | some r => exact hinv
    have hridb : 1 ≤ rid ∧ rid ≤ c' := by
      cases cur with
      | none => simp [hrid, hc']
      | some r =>
        have := hcur r rfl
        simp [hrid, hc']
        omega
    have hrab : ∀ a, roomAbove lines σ.cells x y = some a → 1 ≤ a ∧ a ≤ c' := by
      intro a ha
      have := hcells x (y - 1) a (roomAbove_mem ha)
      omega
    obtain ⟨stA, hA, hinvA⟩ := stepAbove_ok hinv' hrab hridb.1 hridb.2
    dsimp only
    rw [hA]
    dsimp only
    obtain ⟨stB, hB, hinvB⟩ := stepChair_ok hinvA hridb.1 hridb.2
    rw [hB]
    dsimp only
    obtain ⟨stC, buf', hC, hinvC⟩ := stepName_ok buf hinvB hridb.1 hridb.2
    rw [hC]
    dsimp only
    have hcellsOk : CellsOk c' (setCell σ.cells x y rid) := by
      intro x' y' i hi
      simp only [setCell] at hi
      by_cases hxx : x' = x
      · by_cases hyy : y' = y
        · rw [if_pos hxx, if_pos hyy] at hi
          cases hi
          exact hridb
        · rw [if_pos hxx, if_neg hyy] at hi
          have := hcells x' y' i hi
          omega
      · rw [if_neg hxx] at hi
        have := hcells x' y' i hi
        omega
    refine ⟨⟨stC, setCell σ.cells x y rid, c'⟩, some rid, buf', rfl, hinvC, hcellsOk, ?_, hcc'⟩
    intro r hr
    cases hr
    exact hridb

/-! Success and invariant preservation of the full scan loops. -/

theorem rowSteps_ok {lines : List String} {y : Nat} :
    ∀ (xs : List Nat) (σ : SState) (cur : Option Nat) (buf : Option String), SOk σ →
      (∀ rid, cur = some rid → 1 ≤ rid ∧ rid ≤ σ.counter) →
      ∃ σ' cur' buf', rowSteps lines y xs (σ, cur, buf) = some (σ', cur', buf') ∧ SOk σ' ∧
        σ.counter ≤ σ'.counter := by
  intro xs
  induction xs with
  | nil =>
    intro σ cur buf hok _
    exact ⟨σ, cur, buf, rfl, hok, le_refl _⟩
  | cons x xs ih =>
    intro σ cur buf hok hcur
    obtain ⟨σ1, cur1, buf1, hstep, hinv1, hcells1, hcur1, hle1⟩ :=
      @cellStep_ok lines y x σ cur buf hok.1 hok.2 hcur
    obtain ⟨σ', cur', buf', hrest, hok', hle'⟩ := ih σ1 cur1 buf1 ⟨hinv1, hcells1⟩ hcur1
    refine ⟨σ', cur', buf', ?_, hok', by omega⟩
    rw [rowSteps]
    dsimp only
    rw [hstep]
    exact hrest

theorem scanRow_ok {lines : List String} {y : Nat} {σ : SState} (hok : SOk σ) :
    ∃ σ', scanRow lines y σ = some σ' ∧ SOk σ' := by
  obtain ⟨σ', cur', buf', hrow, hok', _⟩ :=
    @rowSteps_ok lines y (List.range (gwidth lines)) σ none none hok
      (by intro rid h; cases h)
  refine ⟨σ', ?_, hok'⟩
  rw [scanRow, hrow]

theorem scanRows_ok {lines : List String} :
    ∀ (ys : List Nat) (σ : SState), SOk σ →
      ∃ σ', scanRows lines ys σ = some σ' ∧ SOk σ' := by
  intro ys
  induction ys with
  | nil =>
    intro σ hok
    exact ⟨σ, rfl, hok⟩
  | cons y ys ih =>
    intro σ hok
    obtain ⟨σ1, hrow, hok1⟩ := @scanRow_ok lines y σ hok
    obtain ⟨σ', hrest, hok'⟩ := ih σ1 hok1
    refine ⟨σ', ?_, hok'⟩
    rw [scanRows, hrow]
    exact hrest

theorem scanGrid_ok (lines : List String) :
    ∃ σ, scanGrid lines = some σ ∧ SOk σ := by
  apply scanRows_ok
  constructor
  · exact inv_init
  · intro x y i h
    cases h

theorem extractAux_ok {c : Nat} :
    ∀ (ids : List (Option Nat)) (st : Store) (seen out : List Nat) (warns : List (Nat × Nat)),
      Inv c st →
      ∃ st' seen' out' warns',
        extractAux (c + 1) ids st seen out warns = some (st', seen', out', warns') ∧
          Inv c st' := by
  intro ids
  induction ids with
  | nil =>
    intro st seen out warns hinv
    exact ⟨st, seen, out, warns, rfl, hinv⟩
  | cons o rest ih =>
    intro st seen out warns hinv
    cases o with
    | none => exact ih st seen out warns hinv
    | some rid =>
      obtain ⟨st1, r, hf, _⟩ := inv_finalE_ok hinv rid
      have hinv1 : Inv c st1 := inv_finalE hinv hf
      rw [extractAux, hf]
      dsimp only
      by_cases hseen : r ∈ seen
      · rw [if_pos hseen]
        exact ih st1 seen out warns hinv1
      · rw [if_neg hseen]
        by_cases hname : ((st1 r).name).isSome
        · rw [if_pos hname]
          exact ih st1 (r :: seen) (out ++ [r]) warns hinv1
        · rw [if_neg hname]
          by_cases htot : 0 < (st1 r).chairs.total
          · rw [if_pos htot]
            exact ih st1 (r :: seen) out (warns ++ [(r, (st1 r).chairs.total)]) hinv1
          · rw [if_neg htot]
            exact ih st1 (r :: seen) out warns hinv1

theorem parseE_isSome (t : String) : (parseE t).isSome := by
  rw [parseE]
  by_cases hz : gheight (splitlines t) = 0
  · rw [if_pos hz]
    rfl
  · rw [if_neg hz]
    obtain ⟨σ, hscan, hok⟩ := scanGrid_ok (splitlines t)
    rw [hscan]
    dsimp only
    obtain ⟨st', seen', out', warns', hext, _⟩ :=
      extractAux_ok (cellsList (gwidth (splitlines t)) (gheight (splitlines t)) σ.cells)
        σ.store [] [] [] hok.1
    rw [hext]
    rfl

/-- One unfolding step of the chain chase across a link. -/
theorem rootN_succ_link {f : Nat} {st : Store} {i j : Nat}
    (hij : (st i).mergedInto = some j) : rootN (f + 1) st i = rootN f st j := by
  rw [rootN, hij]

/-- One unfolding step of the chain chase at a root. -/
theorem rootN_succ_root {f : Nat} {st : Store} {i : Nat}
    (hi : (st i).mergedInto = none) : rootN (f + 1) st i = some i := by
  rw [rootN, hi]

/-- A successful `final` on a non-root rewires that room's link directly to
the returned root. -/
theorem finalE_writes_head {f : Nat} {st st' : Store} {i j r : Nat}
    (hij : (st i).mergedInto = some j) (h : finalE f st i = some (st', r)) :
    (st' i).mergedInto = some r := by
  cases f with
  | zero => simp [finalE] at h
  | succ n =>
    rw [finalE] at h
    split at h <;> rename_i heq
    · rw [heq] at hij; cases hij
    · split at h
      · cases h
      · rename_i st1 r1 hrec
        cases h
        simp [setRoom]

/-! Claim theorems. -/

/-- C1 counterexample: merging an absorbed root whose name is the empty
string into a surviving root with no name does not transfer the name, because
`Room.merge_with` tests Python truthiness (`if other.name`), under which the
empty string is falsy. The claim asserts the empty-string name would be
adopted. -/
theorem claim_C1_counterexample :
    (((setRoom (fun _ => RoomData.init) 2 ⟨some "", Chairs.zero, none⟩ : Store) 1).mergedInto
        = none) ∧
    (((setRoom (fun _ => RoomData.init) 2 ⟨some "", Chairs.zero, none⟩ : Store) 2).mergedInto
        = none) ∧
    (((setRoom (fun _ => RoomData.init) 2 ⟨some "", Chairs.zero, none⟩ : Store) 1).name
        = none) ∧
    (((setRoom (fun _ => RoomData.init) 2 ⟨some "", Chairs.zero, none⟩ : Store) 2).name
        = some "") ∧
    ((mergeWith (setRoom (fun _ => RoomData.init) 2 ⟨some "", Chairs.zero, none⟩) 1 2).1 1).name
        = none ∧
    ((mergeWith (setRoom (fun _ => RoomData.init) 2 ⟨some "", Chairs.zero, none⟩) 1 2).1 1).name
        ≠ some "" := by
  refine ⟨rfl, rfl, rfl, rfl, rfl, ?_⟩
  decide

/-- C1 amended: for `union(root_a, root_b)` on two distinct roots, the
surviving root adopts the absorbed root's name if and only if the absorbed
root's name is truthy (assigned and nonempty) and the survivor's name is
falsy (absent or empty); in every other case the survivor's name is kept
unchanged. -/
theorem claim_C1_union_name_rule (st : Store) (a b : Nat) (hab : a ≠ b)
    (hra : (st a).mergedInto = none) (hrb : (st b).mergedInto = none) :
    (pyTruthy (st b).name = true → pyTruthy (st a).name = false →
      ((mergeWith st a b).1 a).name = (st b).name) ∧
    (pyTruthy (st b).name = false ∨ pyTruthy (st a).name = true →
      ((mergeWith st a b).1 a).name = (st a).name) := by
  constructor
  · intro hb ha
    rw [mergeWith_name_a st a b hab, hb, ha]
    rfl
  · intro h
    rw [mergeWith_name_a st a b hab]
    rcases h with h | h <;> rw [h] <;> simp

/-- Witness for the amended C1 at a concrete store: an absorbed nonempty
name `B` is adopted by a survivor with no name. -/
theorem claim_C1_union_name_rule_witness :
    ((mergeWith (setRoom (fun _ => RoomData.init) 2 ⟨some "B", Chairs.zero, none⟩) 1 2).1 1).name
      = some "B" :=
  (claim_C1_union_name_rule (setRoom (fun _ => RoomData.init) 2 ⟨some "B", Chairs.zero, none⟩)
    1 2 (by decide) rfl rfl).1 (by decide) (by decide)

/-- C3: `union(root_a, root_b)` on distinct roots links `root_b` to `root_a`,
returns `root_a`, sums the chair tallies elementwise onto the survivor, and
`find` (with compression) never changes any room's chair tallies, before or
after the union. -/
theorem claim_C3_union_totals (st : Store) (a b : Nat) (hab : a ≠ b)
    (hra : (st a).mergedInto = none) (hrb : (st b).mergedInto = none) :
    ((mergeWith st a b).1 b).mergedInto = some a ∧
    (mergeWith st a b).2 = a ∧
    ((mergeWith st a b).1 a).chairs = Chairs.add (st a).chairs (st b).chairs ∧
    (∀ f i st' r k, finalE f st i = some (st', r) → (st' k).chairs = (st k).chairs) ∧
    (∀ f i st' r k, finalE f (mergeWith st a b).1 i = some (st', r) →
      (st' k).chairs = ((mergeWith st a b).1 k).chairs) := by
  refine ⟨?_, rfl, mergeWith_chairs_a st a b, ?_, ?_⟩
  · rw [mergeWith_mergedInto, if_pos rfl]
  · intro f i st' r k h
    exact (finalE_preserves h k).2
  · intro f i st' r k h
    exact (finalE_preserves h k).2

/-- Witness for C3 at a concrete store: tallies `(1, 2, 3, 4)` and
`(10, 20, 30, 40)` sum to `(11, 22, 33, 44)` on the survivor. -/
theorem claim_C3_union_totals_witness :
    ((mergeWith (setRoom (setRoom (fun _ => RoomData.init) 1 ⟨none, ⟨1, 2, 3, 4⟩, none⟩)
        2 ⟨none, ⟨10, 20, 30, 40⟩, none⟩) 1 2).1 1).chairs = ⟨11, 22, 33, 44⟩ ∧
    ((mergeWith (setRoom (setRoom (fun _ => RoomData.init) 1 ⟨none, ⟨1, 2, 3, 4⟩, none⟩)
        2 ⟨none, ⟨10, 20, 30, 40⟩, none⟩) 1 2).1 2).mergedInto = some 1 := by
  have h := claim_C3_union_totals
    (setRoom (setRoom (fun _ => RoomData.init) 1 ⟨none, ⟨1, 2, 3, 4⟩, none⟩)
      2 ⟨none, ⟨10, 20, 30, 40⟩, none⟩) 1 2 (by decide) rfl rfl
  refine ⟨?_, h.1⟩
  rw [h.2.2.1]
  decide

/-- C5: when `find` resolves a room to its root, running `find` again from
that root returns the very same store and root (so `find(find(r)) ==
find(r))`, and `find` on a room that is already a root returns that room
itself with the store untouched. -/
theorem claim_C5_find_idempotent {f : Nat} {st : Store} {i r : Nat} {st' : Store}
    (h : finalE f st i = some (st', r)) :
    (∀ g, finalE (g + 1) st' r = some (st', r)) ∧
    ((st i).mergedInto = none → ∀ g, finalE (g + 1) st i = some (st, i)) := by
  constructor
  · intro g
    exact finalE_of_root (finalE_rootRoot h)
  · intro hroot g
    exact finalE_of_root hroot

/-- Witness for C5 on the concrete chain `3 -> 2 -> 1`: the first `find`
compresses `3`'s link onto the root `1`, and a second `find` from the root
returns the identical store and root. -/
theorem claim_C5_find_idempotent_witness :
    finalE 9
      (setRoom (setRoom (setRoom (setRoom (fun _ => RoomData.init)
          3 ⟨none, Chairs.zero, some 2⟩) 2 ⟨none, Chairs.zero, some 1⟩)
            2 ⟨none, Chairs.zero, some 1⟩) 3 ⟨none, Chairs.zero, some 1⟩) 1 =
      some ((setRoom (setRoom (setRoom (setRoom (fun _ => RoomData.init)
          3 ⟨none, Chairs.zero, some 2⟩) 2 ⟨none, Chairs.zero, some 1⟩)
            2 ⟨none, Chairs.zero, some 1⟩) 3 ⟨none, Chairs.zero, some 1⟩), 1) := by
  have hchain : finalE 3
      (setRoom (setRoom (fun _ => RoomData.init) 3 ⟨none, Chairs.zero, some 2⟩)
        2 ⟨none, Chairs.zero, some 1⟩) 3 =
      some ((setRoom (setRoom (setRoom (setRoom (fun _ => RoomData.init)
          3 ⟨none, Chairs.zero, some 2⟩) 2 ⟨none, Chairs.zero, some 1⟩)
            2 ⟨none, Chairs.zero, some 1⟩) 3 ⟨none, Chairs.zero, some 1⟩), 1) := rfl
  exact (claim_C5_find_idempotent hchain).1 8

/-- C6: after merging `c` into `b` and then `b` into `a` (all distinct
roots), `find(c)` and `find(b)` both return the very same root `a`; the
compression performed by `find(c)` rewires `c`'s link directly onto `a`, and
it never changes the root that the chain chase assigns to any room. -/
theorem claim_C6_path_compression (st : Store) (a b c : Nat)
    (hra : (st a).mergedInto = none) (hrb : (st b).mergedInto = none)
    (hrc : (st c).mergedInto = none) (hab : a ≠ b) (hbc : b ≠ c) (hac : a ≠ c) :
    ∃ st3 st4,
      finalE 3 (mergeWith (mergeWith st b c).1 a b).1 c = some (st3, a) ∧
      (st3 c).mergedInto = some a ∧
      finalE 3 st3 b = some (st4, a) ∧
      (∀ g k r, rootN g (mergeWith (mergeWith st b c).1 a b).1 k = some r →
        rootN g st3 k = some r) := by
  have hcb : c ≠ b := fun h => hbc h.symm
  have hca : c ≠ a := fun h => hac h.symm
  have hba : b ≠ a := fun h => hab h.symm
  have h2c : ((mergeWith (mergeWith st b c).1 a b).1 c).mergedInto = some b := by
    rw [mergeWith_mergedInto, if_neg hcb, mergeWith_mergedInto, if_pos rfl]
  have h2b : ((mergeWith (mergeWith st b c).1 a b).1 b).mergedInto = some a := by
    rw [mergeWith_mergedInto, if_pos rfl]
  have h2a : ((mergeWith (mergeWith st b c).1 a b).1 a).mergedInto = none := by
    rw [mergeWith_mergedInto, if_neg hab, mergeWith_mergedInto, if_neg hac]
    exact hra
  have hr3 : rootN 3 (mergeWith (mergeWith st b c).1 a b).1 c = some a := by
    show rootN (2 + 1) (mergeWith (mergeWith st b c).1 a b).1 c = some a
    rw [rootN_succ_link h2c]
    show rootN (1 + 1) (mergeWith (mergeWith st b c).1 a b).1 b = some a
    rw [rootN_succ_link h2b]
    exact rootN_succ_root h2a
  obtain ⟨st3, hf3⟩ := finalE_isSome hr3
  have h3c : (st3 c).mergedInto = some a := finalE_writes_head h2c hf3
  have h3b : (st3 b).mergedInto = some a := by
    rcases finalE_touched hf3 b with hw | hw
    · rw [hw]; exact h2b
    · exact hw
  have h3a : (st3 a).mergedInto = none := finalE_rootRoot hf3
  have hr3b : rootN 3 st3 b = some a := by
    show rootN (2 + 1) st3 b = some a
    rw [rootN_succ_link h3b]
    exact rootN_succ_root h3a
  obtain ⟨st4, hf4⟩ := finalE_isSome hr3b
  exact ⟨st3, st4, hf3, h3c, hf4, fun g k r h => finalE_preserves_root hf3 h⟩

/-- Witness for C6 on the fresh rooms `1`, `2`, `3` of an initial store. -/
theorem claim_C6_path_compression_witness :
    ∃ st3 st4,
      finalE 3 (mergeWith (mergeWith (fun _ => RoomData.init) 2 3).1 1 2).1 3 = some (st3, 1) ∧
      (st3 3).mergedInto = some 1 ∧
      finalE 3 st3 2 = some (st4, 1) ∧
      (∀ g k r, rootN g (mergeWith (mergeWith (fun _ => RoomData.init) 2 3).1 1 2).1 k = some r →
        rootN g st3 k = some r) :=
  claim_C6_path_compression (fun _ => RoomData.init) 1 2 3 rfl rfl rfl
    (by decide) (by decide) (by decide)

/-- C7: `parse` is total — for every input string it returns a result list
without any fatal error path (no `Room.final` chase can run forever) — and
the empty input string yields the empty room list and no diagnostics. -/
theorem claim_C7_parse_total :
    (∀ t : String, (parseE t).isSome) ∧ parseE "" = some ([], []) :=
  ⟨parseE_isSome, rfl⟩

/-! Lemmas for the output formatter. -/

theorem foldl_chairs_add (l : List RoomSnap) (acc : Chairs) :
    l.foldl (fun a r => Chairs.add a r.chairs) acc =
      ⟨acc.w + (l.map (fun r => r.chairs.w)).sum,
       acc.p + (l.map (fun r => r.chairs.p)).sum,
       acc.s + (l.map (fun r => r.chairs.s)).sum,
       acc.c + (l.map (fun r => r.chairs.c)).sum⟩ := by
  induction l generalizing acc with
  | nil =>
    cases acc
    simp
  | cons r t ih =>
    rw [List.foldl_cons, ih]
    simp [Chairs.add, Chairs.mk.injEq]
    refine ⟨by omega, by omega, by omega, by omega⟩

theorem totalsOf_eq (rooms : List RoomSnap) :
    totalsOf rooms =
      ⟨(rooms.map (fun r => r.chairs.w)).sum, (rooms.map (fun r => r.chairs.p)).sum,
       (rooms.map (fun r => r.chairs.s)).sum, (rooms.map (fun r => r.chairs.c)).sum⟩ := by
  rw [totalsOf, foldl_chairs_add]
  simp [Chairs.zero]

theorem filter_key_orderedInsert (key : String) (r : RoomSnap) (l : List RoomSnap) :
    (List.orderedInsert (fun a b => nameKey a ≤ nameKey b) r l).filter
        (fun x => nameKey x == key) =
      if nameKey r == key then r :: l.filter (fun x => nameKey x == key)
      else l.filter (fun x => nameKey x == key) := by
  induction l with
  | nil =>
    rw [List.orderedInsert, List.filter_cons]
  | cons b t ih =>
    rw [List.orderedInsert]
    by_cases hrb : nameKey r ≤ nameKey b
    · rw [if_pos hrb]
      rw [List.filter_cons]
    · rw [if_neg hrb]
      have hblt : nameKey b < nameKey r := lt_of_not_le hrb
      rw [List.filter_cons, List.filter_cons, ih]
      by_cases hbk : (nameKey b == key) = true
      · have hbkey : nameKey b = key := eq_of_beq hbk
        have hrk : (nameKey r == key) = false := by
          apply beq_eq_false_iff_ne.mpr
          intro hx
          rw [hx, ← hbkey] at hblt
          exact lt_irrefl _ hblt
        simp [hbk, hrk]
      · simp [hbk]

theorem filter_key_insertionSort (key : String) (l : List RoomSnap) :
    (List.insertionSort (fun a b => nameKey a ≤ nameKey b) l).filter
        (fun x => nameKey x == key) =
      l.filter (fun x => nameKey x == key) := by
  induction l with
  | nil => rfl
  | cons r t ih =>
    rw [List.insertionSort, filter_key_orderedInsert, ih, List.filter_cons]

/-- C8: `format_output` emits the `total:` header followed by the elementwise
sum of all rooms' chair tallies, then for each room — sorted by the key
`name or ""` in ascending lexicographic order, stably, so that empty names
come first — a name line followed by its chair-count line; every chair-count
line lists the four types in the fixed order W, P, S, C joined by comma and
space; and the output ends in a newline. -/
theorem claim_C8_format_output (rooms : List RoomSnap) :
    formatOutput rooms =
      String.intercalate "\n"
        ("total:" :: formatChairLine (totalsOf rooms) :: roomLines (sortedRooms rooms)) ++ "\n" ∧
    totalsOf rooms =
      ⟨(rooms.map (fun r => r.chairs.w)).sum, (rooms.map (fun r => r.chairs.p)).sum,
       (rooms.map (fun r => r.chairs.s)).sum, (rooms.map (fun r => r.chairs.c)).sum⟩ ∧
    (∀ k : Chairs, formatChairLine k =
      "W: " ++ toString k.w ++ ", P: " ++ toString k.p ++ ", S: " ++ toString k.s ++
        ", C: " ++ toString k.c) ∧
    List.Sorted (fun a b => nameKey a ≤ nameKey b) (sortedRooms rooms) ∧
    (sortedRooms rooms).Perm rooms ∧
    (∀ key : String, (sortedRooms rooms).filter (fun x => nameKey x == key) =
      rooms.filter (fun x => nameKey x == key)) ∧
    (∃ body, formatOutput rooms = body ++ "\n") := by
  refine ⟨rfl, totalsOf_eq rooms, ?_, ?_, List.perm_insertionSort _ rooms, ?_, ⟨_, rfl⟩⟩
  · intro k
    simp only [formatChairLine]
    simp [String.intercalate, String.intercalate.go]
    rw [← String.append_assoc, ← String.append_assoc, ← String.append_assoc,
      String.append_assoc _ ", " "P: ", String.append_assoc _ ", " "S: ",
      String.append_assoc _ ", " "C: "]
    rfl
  · haveI : IsTotal RoomSnap (fun a b => nameKey a ≤ nameKey b) :=
      ⟨fun a b => le_total (nameKey a) (nameKey b)⟩
    haveI : IsTrans RoomSnap (fun a b => nameKey a ≤ nameKey b) :=
      ⟨fun a b c hab hbc => le_trans hab hbc⟩
    exact List.sorted_insertionSort _ rooms
  · exact fun key => filter_key_insertionSort key rooms

/-- Computation of `cellStep` on a non-wall cell with an open current room
and no connected room above: only the chair and name stages act. -/
theorem cellStep_no_above {lines : List String} {y x : Nat} {σ : SState} {rid : Nat}
    {buf : Option String} (hw : isWallChar (getChar lines x y) = false)
    (hab : roomAbove lines σ.cells x y = none) :
    cellStep lines y x σ (some rid) buf =
      match stepChair (σ.counter + 1) σ.store (getChar lines x y) rid with
      | none => none
      | some stB =>
        match stepName (σ.counter + 1) stB (getChar lines x y) rid buf with
        | none => none
        | some (stC, buf') =>
          some (⟨stC, setCell σ.cells x y rid, σ.counter⟩, some rid, buf') := by
  unfold cellStep
  rw [if_neg (by rw [hw]; exact Bool.false_ne_true)]
  dsimp only
  rw [hab]
  rfl

/-- C9: a chair character scanned while a name buffer is open is counted on
the current region's root and appended to the name buffer at the same time;
in particular a region labelled `(Working)` gains one W chair from its own
label. -/
theorem claim_C9_chair_in_name :
    (∀ (lines : List String) (y x : Nat) (σ : SState) (rid : Nat) (bf : String),
      Inv σ.counter σ.store →
      getChar lines x y ∈ chairChars →
      roomAbove lines σ.cells x y = none →
      ∃ σ' r,
        cellStep lines y x σ (some rid) (some bf) =
          some (σ', some rid, some (bf.push (getChar lines x y))) ∧
        rootN (σ.counter + 1) σ.store rid = some r ∧
        (σ'.store r).chairs = Chairs.incr ((σ.store r).chairs) (getChar lines x y) ∧
        (σ'.store r).name = (σ.store r).name) ∧
    parseE "(Working)" = some ([⟨1, some "Working", ⟨1, 0, 0, 0⟩⟩], []) := by
  constructor
  · intro lines y x σ rid bf hinv hch hab
    have hch4 : getChar lines x y = 'W' ∨ getChar lines x y = 'P' ∨
        getChar lines x y = 'S' ∨ getChar lines x y = 'C' := by
      simpa [chairChars] using hch
    have hw : isWallChar (getChar lines x y) = false := by
      rcases hch4 with h | h | h | h <;> rw [h] <;> decide
    have hnp1 : getChar lines x y ≠ '(' := by
      rcases hch4 with h | h | h | h <;> rw [h] <;> decide
    have hnp2 : getChar lines x y ≠ ')' := by
      rcases hch4 with h | h | h | h <;> rw [h] <;> decide
    obtain ⟨st1, r, hf, hr⟩ := inv_finalE_ok hinv rid
    have hchair : stepChair (σ.counter + 1) σ.store (getChar lines x y) rid =
        some (setRoom st1 r
          { st1 r with chairs := Chairs.incr (st1 r).chairs (getChar lines x y) }) := by
      rw [stepChair, if_pos hch, hf]
    have hname : stepName (σ.counter + 1)
        (setRoom st1 r { st1 r with chairs := Chairs.incr (st1 r).chairs (getChar lines x y) })
        (getChar lines x y) rid (some bf) =
        some (setRoom st1 r
          { st1 r with chairs := Chairs.incr (st1 r).chairs (getChar lines x y) },
          some (bf.push (getChar lines x y))) := by
      rw [stepName, if_neg hnp1, if_neg hnp2]
    refine ⟨⟨setRoom st1 r
        { st1 r with chairs := Chairs.incr (st1 r).chairs (getChar lines x y) },
        setCell σ.cells x y rid, σ.counter⟩, r, ?_, hr, ?_, ?_⟩
    · rw [cellStep_no_above hw hab, hchair]
      dsimp only
      rw [hname]
    · have hpres := (finalE_preserves hf r).2
      simp [setRoom, hpres]
    · have hpres := (finalE_preserves hf r).1
      simp [setRoom, hpres]
  · rfl

/-- Witness for the step part of C9: scanning the single chair cell `W` with
an open buffer counts the chair and appends `W` to the buffer. -/
theorem claim_C9_chair_in_name_witness :
    ∃ σ' r,
      cellStep (splitlines "W") 0 0 initState (some 1) (some "") =
        some (σ', some 1, some ("".push (getChar (splitlines "W") 0 0))) ∧
      rootN (initState.counter + 1) initState.store 1 = some r ∧
      (σ'.store r).chairs = Chairs.incr ((initState.store r).chairs)
        (getChar (splitlines "W") 0 0) ∧
      (σ'.store r).name = (initState.store r).name :=
  claim_C9_chair_in_name.1 (splitlines "W") 0 0 initState 1 "" inv_init (by decide) rfl

/-- C10: a `)` scanned with an open empty buffer assigns the empty string —
not absence — as the name of the current region's root; such a region is
treated as named by extraction (it appears in the result of `parse`) and its
empty name sorts first in the formatted output. -/
theorem claim_C10_empty_name :
    (∀ (lines : List String) (y x : Nat) (σ : SState) (rid : Nat),
      Inv σ.counter σ.store →
      getChar lines x y = ')' →
      roomAbove lines σ.cells x y = none →
      ∃ σ' r,
        cellStep lines y x σ (some rid) (some "") = some (σ', some rid, none) ∧
        rootN (σ.counter + 1) σ.store rid = some r ∧
        (σ'.store r).name = some "") ∧
    parseE "()W|P(b)" =
      some ([⟨1, some "", ⟨1, 0, 0, 0⟩⟩, ⟨2, some "b", ⟨0, 1, 0, 0⟩⟩], []) ∧
    formatOutput [⟨1, some "", ⟨1, 0, 0, 0⟩⟩, ⟨2, some "b", ⟨0, 1, 0, 0⟩⟩] =
      "total:\nW: 1, P: 1, S: 0, C: 0\n:\nW: 1, P: 0, S: 0, C: 0\nb:\nW: 0, P: 1, S: 0, C: 0\n" := by
  refine ⟨?_, rfl, ?_⟩
  · intro lines y x σ rid hinv hch hab
    have hw : isWallChar (getChar lines x y) = false := by
      rw [hch]; decide
    have hnc : getChar lines x y ∉ chairChars := by
      rw [hch]; decide
    have hnp1 : getChar lines x y ≠ '(' := by
      rw [hch]; decide
    obtain ⟨st1, r, hf, hr⟩ := inv_finalE_ok hinv rid
    have hchair : stepChair (σ.counter + 1) σ.store (getChar lines x y) rid =
        some σ.store := by
      rw [stepChair, if_neg hnc]
    have hname : stepName (σ.counter + 1) σ.store (getChar lines x y) rid (some "") =
        some (setRoom st1 r { st1 r with name := some "" }, none) := by
      rw [stepName, if_neg hnp1, if_pos hch]
      dsimp only
      rw [hf]
    refine ⟨⟨setRoom st1 r { st1 r with name := some "" },
        setCell σ.cells x y rid, σ.counter⟩, r, ?_, hr, ?_⟩
    · rw [cellStep_no_above hw hab, hchair]
      dsimp only
      rw [hname]
    · simp [setRoom]
  · have hle : nameKey ⟨1, some "", ⟨1, 0, 0, 0⟩⟩ ≤ nameKey ⟨2, some "b", ⟨0, 1, 0, 0⟩⟩ := by
      show ("" : String) ≤ "b"
      rw [String.le_iff_toList_le]
      exact List.nil_le
    have hsort : sortedRooms [⟨1, some "", ⟨1, 0, 0, 0⟩⟩, ⟨2, some "b", ⟨0, 1, 0, 0⟩⟩] =
        [⟨1, some "", ⟨1, 0, 0, 0⟩⟩, ⟨2, some "b", ⟨0, 1, 0, 0⟩⟩] := by
      rw [sortedRooms, List.insertionSort, List.insertionSort, List.insertionSort,
        List.orderedInsert, List.orderedInsert, if_pos hle]
    rw [formatOutput, hsort]
    decide

/-- Overwriting a record without changing its forward pointer leaves every
chain chase unchanged. -/
theorem setRoom_keep_mergedInto {st : Store} {i : Nat} {rd : RoomData}
    (hmi : rd.mergedInto = (st i).mergedInto) (f k : Nat) :
    rootN f (setRoom st i rd) k = rootN f st k := by
  apply rootN_congr
  intro j
  by_cases hji : j = i
  · subst hji
    simpa [setRoom] using hmi
  · simp [setRoom, hji]

/-- The chair stage never changes any room's root. -/
theorem stepChair_roots {F : Nat} {st st' : Store} {ch : Char} {rid : Nat}
    (h : stepChair F st ch rid = some st') {g k r : Nat}
    (hk : rootN g st k = some r) : rootN g st' k = some r := by
  rw [stepChair] at h
  split at h
  · split at h
    · cases h
    · rename_i st1 r1 hf
      cases h
      have hpt := @setRoom_keep_mergedInto st1 r1
        { st1 r1 with chairs := Chairs.incr (st1 r1).chairs ch } rfl g k
      rw [hpt]
      exact finalE_preserves_root hf hk
  · cases h
    exact hk

/-- The name stage never changes any room's root. -/
theorem stepName_roots {F : Nat} {st st' : Store} {ch : Char} {rid : Nat}
    {buf buf' : Option String} (h : stepName F st ch rid buf = some (st', buf')) {g k r : Nat}
    (hk : rootN g st k = some r) : rootN g st' k = some r := by
  unfold stepName at h
  split at h
  · cases h
    exact hk
  · split at h
    · split at h
      · rename_i bf
        split at h
        · cases h
        · rename_i st1 r1 hf
          cases h
          have hpt := @setRoom_keep_mergedInto st1 r1
            { st1 r1 with name := some bf } rfl g k
          rw [hpt]
          exact finalE_preserves_root hf hk
      · cases h
        exact hk
    · split at h
      · cases h
        exact hk
      · cases h
        exact hk

/-- C2 counterexample: in the grid `AAA / B-C` the two one-cell floor
segments of the second row are separated by the wall `-` and both lie under
the single region of the first row; `parse`'s scan leaves them in one and the
same equivalence class (both resolve to root `1`), so wall-separated
segments in a row can be unified through a shared region above. -/
theorem claim_C2_counterexample :
    ∃ σ : SState, scanGrid (splitlines "AAA\nB-C") = some σ ∧
      σ.cells 0 0 = some 1 ∧ σ.cells 1 0 = some 1 ∧ σ.cells 2 0 = some 1 ∧
      σ.cells 0 1 = some 2 ∧ σ.cells 2 1 = some 3 ∧ (2 : Nat) ≠ 3 ∧
      isWallChar (getChar (splitlines "AAA\nB-C") 1 1) = true ∧
      rootN 10 σ.store 2 = some 1 ∧ rootN 10 σ.store 3 = some 1 := by
  refine ⟨_, rfl, rfl, rfl, rfl, rfl, rfl, by decide, by decide, rfl, rfl⟩

/-- C2 amended: the directly-above connectivity check is the sole merge
trigger of a scan step — on any cell, either every room keeps its root, or
the cell is a floor cell with a connected room above whose root differs from
the current room's root, and then exactly the current root's class is
absorbed into the class of the root from above. (Two wall-separated segments
in one row are therefore never merged by any within-row rule, but they can
still end up unified transitively through a shared region above, as the
counterexample shows.) -/
theorem claim_C2_sole_merge_trigger {lines : List String} {y x : Nat} {σ : SState}
    {cur : Option Nat} {buf : Option String} {σ' : SState} {cur' : Option Nat}
    {buf' : Option String} (hinv : Inv σ.counter σ.store)
    (hstep : cellStep lines y x σ cur buf = some (σ', cur', buf')) :
    (∀ g k r, rootN g σ.store k = some r → rootN (g + 1) σ'.store k = some r) ∨
    (∃ ra fa fc, roomAbove lines σ.cells x y = some ra ∧
      isWallChar (getChar lines x y) = false ∧
      rootN (σ.counter + 2) σ.store ra = some fa ∧
      rootN (σ.counter + 2) σ.store
        (match cur with | some r => r | none => σ.counter + 1) = some fc ∧
      fa ≠ fc ∧
      (∀ g k r, rootN g σ.store k = some r →
        rootN (g + 1) σ'.store k = some (if r = fc then fa else r))) := by
  unfold cellStep at hstep
  by_cases hw : isWallChar (getChar lines x y) = true
  · rw [if_pos hw] at hstep
    cases hstep
    exact Or.inl (fun g k r h => rootN_mono (by omega) h)
  · rw [if_neg hw] at hstep
    dsimp only at hstep
    set c' := (match cur with | some _ => σ.counter | none => σ.counter + 1) with hc'
    set rid := (match cur with | some r => r | none => σ.counter + 1) with hrid
    obtain ⟨hcl, hcu⟩ : σ.counter ≤ c' ∧ c' ≤ σ.counter + 1 := by
      cases cur <;> simp [hc']
    cases hA : stepAbove (c' + 1) σ.store (roomAbove lines σ.cells x y) rid with
    | none => rw [hA] at hstep; cases hstep
    | some stA =>
      rw [hA] at hstep
      dsimp only at hstep
      cases hB : stepChair (c' + 1) stA (getChar lines x y) rid with
      | none => rw [hB] at hstep; cases hstep
      | some stB =>
        rw [hB] at hstep
        dsimp only at hstep
        cases hC : stepName (c' + 1) stB (getChar lines x y) rid buf with
        | none => rw [hC] at hstep; cases hstep
        | some p =>
          obtain ⟨stC, bufC⟩ := p
          rw [hC] at hstep
          dsimp only at hstep
          cases hstep
          cases hra : roomAbove lines σ.cells x y with
          | none =>
            rw [hra] at hA
            rw [stepAbove] at hA
            cases hA
            left
            intro g k r h
            exact rootN_mono (g := g + 1) (by omega)
              (stepName_roots hC (stepChair_roots hB h))
          | some a =>
            rw [hra] at hA
            rw [stepAbove] at hA
            cases hf1 : finalE (c' + 1) σ.store a with
            | none => rw [hf1] at hA; cases hA
            | some p1 =>
              obtain ⟨st1, fa⟩ := p1
              rw [hf1] at hA
              dsimp only at hA
              cases hf2 : finalE (c' + 1) st1 rid with
              | none => rw [hf2] at hA; cases hA
              | some p2 =>
                obtain ⟨st2, fc⟩ := p2
                rw [hf2] at hA
                dsimp only at hA
                by_cases hfafc : fa = fc
                · rw [if_pos hfafc] at hA
                  cases hA
                  left
                  intro g k r h
                  exact rootN_mono (g := g + 1) (by omega)
                    (stepName_roots hC (stepChair_roots hB
                      (finalE_preserves_root hf2 (finalE_preserves_root hf1 h))))
                · rw [if_neg hfafc] at hA
                  cases hA
                  right
                  have hfa0 : rootN (c' + 1) σ.store a = some fa := finalE_rootN hf1
                  obtain ⟨fc0, hfc0⟩ := Option.isSome_iff_exists.mp (hinv.chains rid)
                  have hfc0' : rootN (absorbedCount σ.counter σ.store + 1) st1 rid = some fc0 :=
                    finalE_preserves_root hf1 hfc0
                  have hfc2 : fc0 = fc := rootN_det (finalE_rootN hf2) hfc0'
                  subst hfc2
                  have habs := absorbedCount_le σ.counter σ.store
                  refine ⟨a, fa, fc0, rfl, by simpa using hw,
                    rootN_mono (g := σ.counter + 2) (by omega) hfa0,
                    rootN_mono (g := σ.counter + 2) (by omega) hfc0, hfafc,
                    ?_⟩
                  intro g k r h
                  have h1 : rootN g st1 k = some r := finalE_preserves_root hf1 h
                  have h2 : rootN g st2 k = some r := finalE_preserves_root hf2 h1
                  have hfa_root1 : (st1 fa).mergedInto = none := finalE_rootRoot hf1
                  have hfa_root : (st2 fa).mergedInto = none := by
                    rcases finalE_writes hf2 fa with hwr | ⟨⟨j, hj⟩, _⟩
                    · rw [hwr]; exact hfa_root1
                    · rw [hfa_root1] at hj; cases hj
                  have hfc_root : (st2 fc0).mergedInto = none := finalE_rootRoot hf2
                  have h3 := mergeWith_rootN hfa_root hfc_root hfafc h2
                  exact stepName_roots hC (stepChair_roots hB h3)

/-- Witness for the amended C2 on the single floor cell `A` of a fresh scan:
no room lies above, so every room keeps its root. -/
theorem claim_C2_sole_merge_trigger_witness :
    (∀ g k r, rootN g initState.store k = some r →
      rootN (g + 1)
        (SState.mk (fun _ => RoomData.init) (setCell initState.cells 0 0 1) 1).store k =
        some r) ∨
    (∃ ra fa fc, roomAbove (splitlines "A") initState.cells 0 0 = some ra ∧
      isWallChar (getChar (splitlines "A") 0 0) = false ∧
      rootN (initState.counter + 2) initState.store ra = some fa ∧
      rootN (initState.counter + 2) initState.store
        (match (none : Option Nat) with | some r => r | none => initState.counter + 1) =
        some fc ∧
      fa ≠ fc ∧
      (∀ g k r, rootN g initState.store k = some r →
        rootN (g + 1)
          (SState.mk (fun _ => RoomData.init) (setCell initState.cells 0 0 1) 1).store k =
          some (if r = fc then fa else r))) :=
  @claim_C2_sole_merge_trigger (splitlines "A") 0 0 initState none none
    ⟨fun _ => RoomData.init, setCell initState.cells 0 0 1, 1⟩
    (some 1) none inv_init rfl

/-- Witness for the step part of C10: scanning `)` with an open empty buffer
assigns the empty string as the current root's name. -/
theorem claim_C10_empty_name_witness :
    ∃ σ' r,
      cellStep (splitlines ")") 0 0 initState (some 1) (some "") = some (σ', some 1, none) ∧
      rootN (initState.counter + 1) initState.store 1 = some r ∧
      (σ'.store r).name = some "" :=
  claim_C10_empty_name.1 (splitlines ")") 0 0 initState 1 inv_init rfl rfl

/-! The extraction refinement: `extract_unique_rooms` computes exactly the
specification-side room and diagnostic lists. -/

theorem rootsOf_cons_none {f : Nat} {st : Store} {rest : List (Option Nat)} :
    rootsOf f st (none :: rest) = rootsOf f st rest := by
  simp [rootsOf]

theorem rootsOf_cons_some {f : Nat} {st : Store} {i : Nat} {rest : List (Option Nat)} :
    rootsOf f st (some i :: rest) = rootOf f st i :: rootsOf f st rest := by
  simp [rootsOf]

theorem extractAux_spec {f : Nat} {st0 : Store} :
    ∀ (ids : List (Option Nat)) (st : Store) (seen out : List Nat) (warns : List (Nat × Nat)),
      (∀ k, (st k).name = (st0 k).name ∧ (st k).chairs = (st0 k).chairs) →
      (∀ i r, rootN f st0 i = some r → rootN f st i = some r) →
      (∀ i, some i ∈ ids → (rootN f st0 i).isSome) →
      ∃ st' seen',
        extractAux f ids st seen out warns = some (st', seen',
          out ++ (firstOcc (rootsOf f st0 ids) seen).filter
            (fun r => ((st0 r).name).isSome),
          warns ++ ((firstOcc (rootsOf f st0 ids) seen).filter
            (fun r => !((st0 r).name).isSome && decide (0 < (st0 r).chairs.total))).map
            (fun r => (r, (st0 r).chairs.total))) ∧
        (∀ k, (st' k).name = (st0 k).name ∧ (st' k).chairs = (st0 k).chairs) := by
  intro ids
  induction ids with
  | nil =>
    intro st seen out warns hA hB hT
    refine ⟨st, seen, ?_, hA⟩
    simp [extractAux, rootsOf, firstOcc]
  | cons o rest ih =>
    intro st seen out warns hA hB hT
    cases o with
    | none =>
      obtain ⟨st', seen', hext, hA'⟩ :=
        ih st seen out warns hA hB (fun i hi => hT i (List.mem_cons_of_mem _ hi))
      refine ⟨st', seen', ?_, hA'⟩
      rw [extractAux, rootsOf_cons_none]
      exact hext
    | some rid =>
      have hTr : (rootN f st0 rid).isSome := hT rid (List.mem_cons_self _ _)
      obtain ⟨r0, hr0⟩ := Option.isSome_iff_exists.mp hTr
      have hroot : rootOf f st0 rid = r0 := by
        rw [rootOf, hr0]
        rfl
      have hBr : rootN f st rid = some r0 := hB rid r0 hr0
      obtain ⟨st1, hf1⟩ := finalE_isSome hBr
      have hA1 : ∀ k, (st1 k).name = (st0 k).name ∧ (st1 k).chairs = (st0 k).chairs := by
        intro k
        obtain ⟨hn, hc⟩ := finalE_preserves hf1 k
        exact ⟨hn.trans (hA k).1, hc.trans (hA k).2⟩
      have hB1 : ∀ i r, rootN f st0 i = some r → rootN f st1 i = some r :=
        fun i r h => finalE_preserves_root hf1 (hB i r h)
      have hT1 : ∀ i, some i ∈ rest → (rootN f st0 i).isSome :=
        fun i hi => hT i (List.mem_cons_of_mem _ hi)
      by_cases hseen : r0 ∈ seen
      · obtain ⟨st', seen', hext, hA'⟩ := ih st1 seen out warns hA1 hB1 hT1
        refine ⟨st', seen', ?_, hA'⟩
        rw [extractAux, hf1]
        dsimp only
        rw [if_pos hseen, hext, rootsOf_cons_some, hroot, firstOcc, if_pos hseen]
      · by_cases hname : ((st0 r0).name).isSome = true
        · obtain ⟨st', seen', hext, hA'⟩ := ih st1 (r0 :: seen) (out ++ [r0]) warns hA1 hB1 hT1
          refine ⟨st', seen', ?_, hA'⟩
          rw [extractAux, hf1]
          dsimp only
          rw [if_neg hseen]
          have hnm1 : ((st1 r0).name).isSome = true := by
            rw [(hA1 r0).1]
            exact hname
          rw [if_pos hnm1, hext, rootsOf_cons_some, hroot, firstOcc, if_neg hseen]
          obtain ⟨v, hv⟩ := Option.isSome_iff_exists.mp hname
          simp [List.filter_cons, hv, List.append_assoc]
        · have hnm1 : ¬ ((st1 r0).name).isSome = true := by
            rw [(hA1 r0).1]
            exact hname
          by_cases htot : 0 < (st0 r0).chairs.total
          · obtain ⟨st', seen', hext, hA'⟩ :=
              ih st1 (r0 :: seen) out (warns ++ [(r0, (st0 r0).chairs.total)]) hA1 hB1 hT1
            refine ⟨st', seen', ?_, hA'⟩
            rw [extractAux, hf1]
            dsimp only
            rw [if_neg hseen, if_neg hnm1]
            have htot1 : 0 < (st1 r0).chairs.total := by
              rw [(hA1 r0).2]
              exact htot
            rw [if_pos htot1, (hA1 r0).2, hext, rootsOf_cons_some, hroot, firstOcc,
              if_neg hseen]
            have hvn : (st0 r0).name = none := Option.not_isSome_iff_eq_none.mp hname
            simp [List.filter_cons, hvn, htot, List.append_assoc]
          · obtain ⟨st', seen', hext, hA'⟩ := ih st1 (r0 :: seen) out warns hA1 hB1 hT1
            refine ⟨st', seen', ?_, hA'⟩
            rw [extractAux, hf1]
            dsimp only
            rw [if_neg hseen, if_neg hnm1]
            have htot1 : ¬ 0 < (st1 r0).chairs.total := by
              rw [(hA1 r0).2]
              exact htot
            rw [if_neg htot1, hext, rootsOf_cons_some, hroot, firstOcc, if_neg hseen]
            have hvn : (st0 r0).name = none := Option.not_isSome_iff_eq_none.mp hname
            simp [List.filter_cons, hvn, htot]

/-- C4: the extraction loop returns exactly the distinct roots of the walked
cells — resolved in the entering store and deduplicated by root identity in
encounter order — that carry a name; it records exactly one diagnostic
`(id, total)` for each distinct unnamed root with a nonzero chair total,
which is excluded from the returned list; and it never changes any room's
name or chair data, so the diagnostics cannot alter the returned rooms. -/
theorem claim_C4_extraction (f : Nat) (st : Store) (ids : List (Option Nat))
    (hT : ∀ i, some i ∈ ids → (rootN f st i).isSome) :
    ∃ st' seen',
      extractAux f ids st [] [] [] =
        some (st', seen', specRooms f st ids, specWarns f st ids) ∧
      (∀ k, (st' k).name = (st k).name ∧ (st' k).chairs = (st k).chairs) ∧
      specRooms f st ids = (specRoots f st ids).filter (fun r => ((st r).name).isSome) ∧
      specWarns f st ids = ((specRoots f st ids).filter
        (fun r => !((st r).name).isSome && decide (0 < (st r).chairs.total))).map
        (fun r => (r, (st r).chairs.total)) := by
  obtain ⟨st', seen', hext, hA'⟩ :=
    @extractAux_spec f st ids st [] [] [] (fun k => ⟨rfl, rfl⟩)
      (fun i r h => h) hT
  refine ⟨st', seen', ?_, hA', rfl, rfl⟩
  rw [hext]
  rfl

/-- Witness for C4 on a concrete store: cells resolving to a named root and
to an unnamed chaired root produce one returned room and one diagnostic. -/
theorem claim_C4_extraction_witness :
    ∃ st' seen',
      extractAux 2
        [some 1, none, some 1, some 2]
        (setRoom (setRoom (fun _ => RoomData.init) 1 ⟨some "A", Chairs.zero, none⟩)
          2 ⟨none, ⟨1, 0, 0, 0⟩, none⟩) [] [] [] =
        some (st', seen',
          specRooms 2 (setRoom (setRoom (fun _ => RoomData.init) 1 ⟨some "A", Chairs.zero, none⟩)
            2 ⟨none, ⟨1, 0, 0, 0⟩, none⟩) [some 1, none, some 1, some 2],
          specWarns 2 (setRoom (setRoom (fun _ => RoomData.init) 1 ⟨some "A", Chairs.zero, none⟩)
            2 ⟨none, ⟨1, 0, 0, 0⟩, none⟩) [some 1, none, some 1, some 2]) ∧
      (∀ k, (st' k).name =
          ((setRoom (setRoom (fun _ => RoomData.init) 1 ⟨some "A", Chairs.zero, none⟩)
            2 ⟨none, ⟨1, 0, 0, 0⟩, none⟩ : Store) k).name ∧
        (st' k).chairs =
          ((setRoom (setRoom (fun _ => RoomData.init) 1 ⟨some "A", Chairs.zero, none⟩)
            2 ⟨none, ⟨1, 0, 0, 0⟩, none⟩ : Store) k).chairs) ∧
      specRooms 2 (setRoom (setRoom (fun _ => RoomData.init) 1 ⟨some "A", Chairs.zero, none⟩)
          2 ⟨none, ⟨1, 0, 0, 0⟩, none⟩) [some 1, none, some 1, some 2] =
        (specRoots 2 (setRoom (setRoom (fun _ => RoomData.init) 1 ⟨some "A", Chairs.zero, none⟩)
          2 ⟨none, ⟨1, 0, 0, 0⟩, none⟩) [some 1, none, some 1, some 2]).filter
          (fun r => (((setRoom (setRoom (fun _ => RoomData.init) 1
            ⟨some "A", Chairs.zero, none⟩) 2 ⟨none, ⟨1, 0, 0, 0⟩, none⟩ : Store) r).name).isSome) ∧
      specWarns 2 (setRoom (setRoom (fun _ => RoomData.init) 1 ⟨some "A", Chairs.zero, none⟩)
          2 ⟨none, ⟨1, 0, 0, 0⟩, none⟩) [some 1, none, some 1, some 2] =
        ((specRoots 2 (setRoom (setRoom (fun _ => RoomData.init) 1 ⟨some "A", Chairs.zero, none⟩)
          2 ⟨none, ⟨1, 0, 0, 0⟩, none⟩) [some 1, none, some 1, some 2]).filter
          (fun r => !(((setRoom (setRoom (fun _ => RoomData.init) 1
              ⟨some "A", Chairs.zero, none⟩) 2 ⟨none, ⟨1, 0, 0, 0⟩, none⟩ : Store) r).name).isSome
            && decide (0 < ((setRoom (setRoom (fun _ => RoomData.init) 1
              ⟨some "A", Chairs.zero, none⟩) 2 ⟨none, ⟨1, 0, 0, 0⟩, none⟩ : Store) r).chairs.total))).map
          (fun r => (r, ((setRoom (setRoom (fun _ => RoomData.init) 1
            ⟨some "A", Chairs.zero, none⟩) 2 ⟨none, ⟨1, 0, 0, 0⟩, none⟩ : Store) r).chairs.total)) :=
  claim_C4_extraction 2
    (setRoom (setRoom (fun _ => RoomData.init) 1 ⟨some "A", Chairs.zero, none⟩)
      2 ⟨none, ⟨1, 0, 0, 0⟩, none⟩)
    [some 1, none, some 1, some 2]
    (by
      intro i hi
      rcases (by simpa using hi : i = 1 ∨ i = 1 ∨ i = 2) with rfl | rfl | rfl <;> decide)

end ChairScan
